import Mathlib

/-!
Verification of the fader program (single still image → fade video).

The source computes everything in IEEE-754 binary32 (`f32`).  We embed `f32`
exactly: finite values are rationals, and every arithmetic operation rounds
its exact rational result to the binary32 grid (24-bit significand,
round-to-nearest ties-to-even, subnormal scale clamped at 2^(-149), overflow
to infinity at 2^128).  NaN and infinities are explicit constructors.
The sign of zero is not tracked: no operation reached by the claims
distinguishes -0.0 from +0.0.
-/

/-- Fuel-driven base-2 logarithm on naturals (structurally recursive so that
kernel reduction works in `decide` proofs). -/
def log2fuel : ℕ → ℕ → ℕ
  | 0, _ => 0
  | fuel+1, n => if 2 ≤ n then log2fuel fuel (n / 2) + 1 else 0

/-- Base-2 logarithm: for `1 ≤ n`, `2 ^ qlog2 n ≤ n < 2 ^ (qlog2 n + 1)`. -/
def qlog2 (n : ℕ) : ℕ := log2fuel n n

/-- `pow2 e = 2 ^ e` as a rational, defined by cases for easy kernel reduction. -/
def pow2 : ℤ → ℚ
  | Int.ofNat n => (2:ℚ) ^ n
  | Int.negSucc n => ((2:ℚ) ^ (n+1))⁻¹

/-- Round a rational to the nearest integer, ties to even. -/
def rne (x : ℚ) : ℤ :=
  if x - ⌊x⌋ < 1/2 then ⌊x⌋
  else if 1/2 < x - ⌊x⌋ then ⌊x⌋ + 1
  else if ⌊x⌋ % 2 = 0 then ⌊x⌋ else ⌊x⌋ + 1

/-- Binary exponent: for `0 < q`, the unique `e` with `2^e ≤ q < 2^(e+1)`. -/
def qexp (q : ℚ) : ℤ :=
  if q ≤ 0 then 0
  else if 1 ≤ q then (qlog2 ⌊q⌋.toNat : ℤ)
  else if q * pow2 (qlog2 ⌊q⁻¹⌋.toNat : ℤ) = 1 then -(qlog2 ⌊q⁻¹⌋.toNat : ℤ)
  else -(qlog2 ⌊q⁻¹⌋.toNat : ℤ) - 1

/-- Exponent of the binary32 rounding grid at magnitude `q`: one ulp is
`pow2 (scaleExp q)`.  The clamp at `-149` realises subnormal rounding. -/
def scaleExp (q : ℚ) : ℤ := max (qexp q - 23) (-149)

/-- Round a nonnegative rational to the binary32 grid (unbounded exponent). -/
def roundPos (q : ℚ) : ℚ := rne (q / pow2 (scaleExp q)) * pow2 (scaleExp q)

/-- Round a rational to the binary32 grid, nearest, ties to even. -/
def roundF (q : ℚ) : ℚ := if q < 0 then -roundPos (-q) else roundPos q

/-- An `f32` value: NaN, a signed infinity (`inf true` is negative), or a
finite value given by its exact rational magnitude. -/
inductive F32 where
  | nan : F32
  | inf : Bool → F32
  | fin : ℚ → F32
deriving DecidableEq

/-- Smallest magnitude that overflows binary32: `2^128`. -/
def maxMag : ℚ := 2 ^ 128

/-- Round an exact rational result into an `f32` value (overflow to ∞). -/
def mkF (q : ℚ) : F32 :=
  if maxMag ≤ roundF q then F32.inf false
  else if roundF q ≤ -maxMag then F32.inf true
  else F32.fin (roundF q)

/-- Rust `n as f32` for an unsigned integer (round to nearest, ties even). -/
def F32.ofNat (n : ℕ) : F32 := mkF n

/-- `f32` subtraction. -/
def F32.sub : F32 → F32 → F32
  | F32.nan, _ => F32.nan
  | _, F32.nan => F32.nan
  | F32.inf s, F32.inf t => if s = t then F32.nan else F32.inf s
  | F32.inf s, F32.fin _ => F32.inf s
  | F32.fin _, F32.inf t => F32.inf (!t)
  | F32.fin a, F32.fin b => mkF (a - b)

/-- `f32` multiplication. -/
def F32.mul : F32 → F32 → F32
  | F32.nan, _ => F32.nan
  | _, F32.nan => F32.nan
  | F32.inf s, F32.inf t => F32.inf (xor s t)
  | F32.inf s, F32.fin b => if b = 0 then F32.nan else F32.inf (xor s (decide (b < 0)))
  | F32.fin a, F32.inf t => if a = 0 then F32.nan else F32.inf (xor t (decide (a < 0)))
  | F32.fin a, F32.fin b => mkF (a * b)

/-- `f32` division.  `0.0 / 0.0` and `∞ / ∞` are NaN; `x / 0.0` is ∞. -/
def F32.div : F32 → F32 → F32
  | F32.nan, _ => F32.nan
  | _, F32.nan => F32.nan
  | F32.inf _, F32.inf _ => F32.nan
  | F32.inf s, F32.fin b => F32.inf (xor s (decide (b < 0)))
  | F32.fin _, F32.inf _ => F32.fin 0
  | F32.fin a, F32.fin b =>
      if b = 0 then (if a = 0 then F32.nan else F32.inf (decide (a < 0)))
      else mkF (a / b)

/-- `f32::ceil`.  The ceiling of a representable finite value is exactly
representable, so no re-rounding is needed. -/
def F32.fceil : F32 → F32
  | F32.nan => F32.nan
  | F32.inf s => F32.inf s
  | F32.fin q => F32.fin ⌈q⌉

/-- Largest `usize` value (the target is 64-bit). -/
def usizeMax : ℕ := 2 ^ 64 - 1

/-- Rust `x as usize` on an `f32`: NaN → 0, saturating, truncation toward 0. -/
def F32.castUsize : F32 → ℕ
  | F32.nan => 0
  | F32.inf s => if s then 0 else usizeMax
  | F32.fin q => if q ≤ 0 then 0 else min usizeMax ⌊q⌋.toNat

/-- Rust `x as u8` on an `f32`: NaN → 0, saturating, truncation toward 0. -/
def F32.castU8 : F32 → Fin 256
  | F32.nan => 0
  | F32.inf s => if s then 0 else 255
  | F32.fin q =>
      if q ≤ 0 then 0
      else ⟨min 255 ⌊q⌋.toNat, Nat.lt_succ_of_le (Nat.min_le_left _ _)⟩

/-- IEEE comparison `x <= y` as a Bool (false whenever a NaN is involved). -/
def F32.ble : F32 → F32 → Bool
  | F32.nan, _ => false
  | _, F32.nan => false
  | F32.inf s, F32.inf t => s || !t
  | F32.inf s, F32.fin _ => s
  | F32.fin _, F32.inf t => !t
  | F32.fin a, F32.fin b => decide (a ≤ b)

/-- IEEE `x <= y` as a proposition. -/
def F32.le (x y : F32) : Prop := F32.ble x y = true

/-- The four fade styles of the CLI (`--style`). -/
inductive FadeStyle where
  | toDark : FadeStyle
  | fromDark : FadeStyle
  | toDarkAndBack : FadeStyle
  | fromDarkAndBack : FadeStyle
deriving DecidableEq

/-- The fade schedule, translated from the `match args.style` block of
`main`: for each style, the ordered list of per-frame `f32` factors.
Every arithmetic step rounds exactly as `f32` does. -/
def fadeFactors (frameCnt : ℕ) (style : FadeStyle) : List F32 :=
  match style with
  | FadeStyle.toDark =>
      (List.range frameCnt).map (fun i =>
        F32.sub (F32.fin 1) (F32.div (F32.ofNat i) (F32.ofNat (frameCnt - 1))))
  | FadeStyle.fromDark =>
      (List.range frameCnt).map (fun i =>
        F32.div (F32.ofNat i) (F32.ofNat (frameCnt - 1)))
  | FadeStyle.toDarkAndBack =>
      let half := frameCnt / 2
      let down := (List.range half).map (fun i =>
        F32.sub (F32.fin 1) (F32.div (F32.ofNat i) (F32.ofNat (half - 1))))
      let up := (List.range (frameCnt - half)).map (fun i =>
        F32.div (F32.ofNat i) (F32.ofNat (frameCnt - half - 1)))
      down ++ up
  | FadeStyle.fromDarkAndBack =>
      let half := frameCnt / 2
      let up := (List.range half).map (fun i =>
        F32.div (F32.ofNat i) (F32.ofNat (half - 1)))
      let down := (List.range (frameCnt - half)).map (fun i =>
        F32.sub (F32.fin 1) (F32.div (F32.ofNat i) (F32.ofNat (frameCnt - half - 1))))
      up ++ down

/-- `let frame_count = (args.duration * args.framerate as f32).ceil() as usize`. -/
def frameCount (duration : F32) (framerate : ℕ) : ℕ :=
  (F32.fceil (F32.mul duration (F32.ofNat framerate))).castUsize

/-- An RGBA pixel, four 8-bit channels. -/
structure Rgba where
  r : Fin 256
  g : Fin 256
  b : Fin 256
  a : Fin 256
deriving DecidableEq

/-- An in-memory image: dimensions plus the row-major pixel buffer. -/
structure Img where
  width : ℕ
  height : ℕ
  data : List Rgba
deriving DecidableEq

/-- The per-pixel body of `fade_image`: each colour channel is converted to
`f32`, multiplied by the factor, and cast back with `as u8`; alpha is copied. -/
def fadePixel (p : Rgba) (alpha : F32) : Rgba :=
  { r := F32.castU8 (F32.mul (F32.ofNat p.r.val) alpha)
    g := F32.castU8 (F32.mul (F32.ofNat p.g.val) alpha)
    b := F32.castU8 (F32.mul (F32.ofNat p.b.val) alpha)
    a := p.a }

/-- `fade_image`: allocates a new buffer of the same dimensions and writes the
faded pixel at every position. -/
def fadeImage (img : Img) (alpha : F32) : Img :=
  { width := img.width
    height := img.height
    data := img.data.map (fun p => fadePixel p alpha) }

/-- Portion of a path after the last `/` (Rust `Path::file_name`). -/
def fileNameChars (p : List Char) : List Char :=
  (p.reverse.takeWhile (fun c => c ≠ '/')).reverse

/-- Scan a reversed file name up to the first `.`; `none` when there is no
dot.  Helper for `fileStemChars`. -/
def dropExtRev : List Char → Option (List Char)
  | [] => none
  | c :: cs => if c = '.' then some cs else dropExtRev cs

/-- Rust `Path::file_stem` on a plain file name: the part before the last
dot, unless that part is empty, in which case the whole name. -/
def fileStemChars (name : List Char) : List Char :=
  match dropExtRev name.reverse with
  | none => name
  | some rest => if rest = [] then name else rest.reverse

/-- The default output path of `main`: take the input's file stem, build a
path from it, and `set_extension("mp4")` (which strips a remaining extension
of the stem before appending `.mp4`). -/
def defaultOutput (input : List Char) : List Char :=
  let stem := fileStemChars (fileNameChars input)
  if stem = [] then [] else fileStemChars stem ++ ('.' :: ['m', 'p', '4'])

/-- Modelled from the spec: the default output path is "the input filename
with its extension replaced by the encoder's container extension (mp4)" —
a single extension replacement on the input's file name. -/
def replaceExtensionSpec (input : List Char) : List Char :=
  fileStemChars (fileNameChars input) ++ ('.' :: ['m', 'p', '4'])

/-- The ToDark schedule in exact rational arithmetic (the spec's formula
`factor(i) = 1 − i/(frame_count−1)` without `f32` rounding). -/
def toDarkExact (n : ℕ) : List ℚ :=
  (List.range n).map (fun (i : ℕ) => 1 - (i : ℚ) / ((n - 1 : ℕ) : ℚ))

/-- The FromDark schedule in exact rational arithmetic
(`factor(i) = i/(frame_count−1)`). -/
def fromDarkExact (n : ℕ) : List ℚ :=
  (List.range n).map (fun (i : ℕ) => (i : ℚ) / ((n - 1 : ℕ) : ℚ))

/-- The ToDarkAndBack schedule in exact rational arithmetic: a descent of
`half = n/2` frames then an ascent of `n − half` frames, with the code's
denominators. -/
def toDarkAndBackExact (n : ℕ) : List ℚ :=
  (List.range (n / 2)).map (fun (i : ℕ) => 1 - (i : ℚ) / ((n / 2 - 1 : ℕ) : ℚ)) ++
    (List.range (n - n / 2)).map (fun (i : ℕ) => (i : ℚ) / ((n - n / 2 - 1 : ℕ) : ℚ))

/-- The FromDarkAndBack schedule in exact rational arithmetic: an ascent of
`half = n/2` frames then a descent of `n − half` frames. -/
def fromDarkAndBackExact (n : ℕ) : List ℚ :=
  (List.range (n / 2)).map (fun (i : ℕ) => (i : ℚ) / ((n / 2 - 1 : ℕ) : ℚ)) ++
    (List.range (n - n / 2)).map (fun (i : ℕ) => 1 - (i : ℚ) / ((n - n / 2 - 1 : ℕ) : ℚ))

/-- A concrete one-pixel image used by witnesses. -/
def imgW : Img := { width := 1, height := 1, data := [{ r := 10, g := 20, b := 30, a := 40 }] }

/-- A concrete pixel used by witnesses. -/
def pxW : Rgba := { r := 10, g := 20, b := 30, a := 40 }

attribute [local semireducible] Rat.add Rat.mul Rat.sub Rat.inv

set_option maxRecDepth 8000

lemma log2fuel_spec : ∀ fuel n : ℕ, 1 ≤ n → n ≤ fuel →
    2 ^ log2fuel fuel n ≤ n ∧ n < 2 ^ (log2fuel fuel n + 1) := by
  intro fuel
  induction fuel with
  | zero => intro n h1 h2; omega
  | succ fuel ih =>
    intro n h1 h2
    unfold log2fuel
    by_cases h : 2 ≤ n
    · rw [if_pos h]
      have hrec := ih (n / 2) (by omega) (by omega)
      have ha := hrec.1
      have hb := hrec.2
      rw [pow_succ] at hb
      constructor
      · rw [pow_succ]; omega
      · rw [pow_succ, pow_succ]; omega
    · rw [if_neg h]
      norm_num
      omega

lemma qlog2_spec (n : ℕ) (h : 1 ≤ n) : 2 ^ qlog2 n ≤ n ∧ n < 2 ^ (qlog2 n + 1) :=
  log2fuel_spec n n h le_rfl

lemma pow2_eq_zpow (e : ℤ) : pow2 e = (2:ℚ) ^ e := by
  cases e with
  | ofNat n => exact (zpow_natCast (2:ℚ) n).symm
  | negSucc n => exact (zpow_negSucc (2:ℚ) n).symm

lemma pow2_pos (e : ℤ) : 0 < pow2 e := by
  rw [pow2_eq_zpow]; exact zpow_pos (by norm_num) e

lemma pow2_ne_zero (e : ℤ) : pow2 e ≠ 0 := ne_of_gt (pow2_pos e)

lemma pow2_add (a b : ℤ) : pow2 (a + b) = pow2 a * pow2 b := by
  rw [pow2_eq_zpow, pow2_eq_zpow, pow2_eq_zpow]
  exact zpow_add₀ (by norm_num) a b

lemma pow2_sub (a b : ℤ) : pow2 (a - b) = pow2 a / pow2 b := by
  rw [pow2_eq_zpow, pow2_eq_zpow, pow2_eq_zpow]
  exact zpow_sub₀ (by norm_num) a b

lemma pow2_le_pow2 {a b : ℤ} (h : a ≤ b) : pow2 a ≤ pow2 b := by
  rw [pow2_eq_zpow, pow2_eq_zpow]
  exact zpow_le_zpow_right₀ (by norm_num) h

lemma pow2_lt_pow2 {a b : ℤ} (h : a < b) : pow2 a < pow2 b := by
  rw [pow2_eq_zpow, pow2_eq_zpow]
  exact zpow_lt_zpow_right₀ (by norm_num) h

lemma pow2_natCast (n : ℕ) : pow2 (n : ℤ) = (2:ℚ) ^ n := by
  rw [pow2_eq_zpow]; exact zpow_natCast (2:ℚ) n

lemma pow2_toNat (e : ℤ) (h : 0 ≤ e) : pow2 e = ((2 ^ e.toNat : ℤ) : ℚ) := by
  conv_lhs => rw [show e = (e.toNat : ℤ) from (Int.toNat_of_nonneg h).symm]
  rw [pow2_natCast]
  push_cast
  ring

lemma pow2_zero : pow2 0 = 1 := by
  rw [pow2_eq_zpow]; norm_num

lemma rne_intCast (n : ℤ) : rne (n : ℚ) = n := by
  unfold rne
  rw [Int.floor_intCast]
  norm_num

lemma floor_le_rne (x : ℚ) : ⌊x⌋ ≤ rne x := by
  unfold rne; split_ifs <;> omega

lemma rne_le_floor_add_one (x : ℚ) : rne x ≤ ⌊x⌋ + 1 := by
  unfold rne; split_ifs <;> omega

lemma rne_nonneg (x : ℚ) (h : 0 ≤ x) : 0 ≤ rne x :=
  le_trans (Int.floor_nonneg.mpr h) (floor_le_rne x)

lemma rne_le_int (x : ℚ) (z : ℤ) (h : x ≤ (z : ℚ)) : rne x ≤ z := by
  have h1 : ⌊x⌋ ≤ z := by
    have h2 := Int.floor_mono h
    rwa [Int.floor_intCast] at h2
  have hfl := Int.floor_le x
  unfold rne
  split_ifs with hA hB
  · exact h1
  · have hx : (⌊x⌋ : ℚ) < (z : ℚ) := by linarith
    have : ⌊x⌋ < z := by exact_mod_cast hx
    omega
  · exact h1
  · have hx : (⌊x⌋ : ℚ) < (z : ℚ) := by linarith
    have : ⌊x⌋ < z := by exact_mod_cast hx
    omega

lemma int_le_rne (x : ℚ) (z : ℤ) (h : (z : ℚ) ≤ x) : z ≤ rne x :=
  le_trans (Int.le_floor.mpr h) (floor_le_rne x)

lemma rne_eq_zero (x : ℚ) (h0 : 0 ≤ x) (h : x < 1/2) : rne x = 0 := by
  have hf : ⌊x⌋ = 0 := Int.floor_eq_zero_iff.mpr ⟨h0, by linarith⟩
  unfold rne
  rw [hf]
  norm_num
  intro hc
  linarith

lemma rne_mono (x y : ℚ) (h : x ≤ y) : rne x ≤ rne y := by
  rcases lt_or_eq_of_le (Int.floor_mono h) with hf | hf
  · calc rne x ≤ ⌊x⌋ + 1 := rne_le_floor_add_one x
      _ ≤ ⌊y⌋ := by omega
      _ ≤ rne y := floor_le_rne y
  · unfold rne
    rw [← hf]
    split_ifs <;> first | omega | (exfalso; linarith)

lemma qexp_spec (q : ℚ) (hq : 0 < q) : pow2 (qexp q) ≤ q ∧ q < pow2 (qexp q + 1) := by
  unfold qexp
  rw [if_neg (not_le.mpr hq)]
  by_cases h1 : 1 ≤ q
  · rw [if_pos h1]
    have hf1 : (1:ℤ) ≤ ⌊q⌋ := Int.le_floor.mpr (by exact_mod_cast h1)
    have hm1 : 1 ≤ ⌊q⌋.toNat := by omega
    obtain ⟨ha, hb⟩ := qlog2_spec ⌊q⌋.toNat hm1
    have hcast : ((⌊q⌋.toNat : ℕ) : ℚ) = ((⌊q⌋ : ℤ) : ℚ) := by
      exact_mod_cast Int.toNat_of_nonneg (show (0:ℤ) ≤ ⌊q⌋ by omega)
    constructor
    · rw [pow2_natCast]
      have h2 : ((2 ^ qlog2 ⌊q⌋.toNat : ℕ) : ℚ) ≤ ((⌊q⌋.toNat : ℕ) : ℚ) := by
        exact_mod_cast ha
      have h3 : ((⌊q⌋ : ℤ) : ℚ) ≤ q := Int.floor_le q
      push_cast at h2 ⊢
      linarith [hcast ▸ h2]
    · have h4 : q < ((⌊q⌋ : ℤ) : ℚ) + 1 := Int.lt_floor_add_one q
      have h5 : ((⌊q⌋.toNat : ℕ) : ℚ) + 1 ≤ ((2 ^ (qlog2 ⌊q⌋.toNat + 1) : ℕ) : ℚ) := by
        exact_mod_cast hb
      have h6 : pow2 ((qlog2 ⌊q⌋.toNat : ℤ) + 1) = ((2 ^ (qlog2 ⌊q⌋.toNat + 1) : ℕ) : ℚ) := by
        rw [show ((qlog2 ⌊q⌋.toNat : ℤ) + 1) = ((qlog2 ⌊q⌋.toNat + 1 : ℕ) : ℤ) by push_cast; ring]
        rw [pow2_natCast]
        push_cast
        ring
      rw [h6]
      linarith [hcast ▸ h5]
  · rw [if_neg h1]
    push_neg at h1
    have hq0 : q ≠ 0 := ne_of_gt hq
    have hinv0 : 0 < q⁻¹ := inv_pos.mpr hq
    have hinv : 1 < q⁻¹ := by
      calc (1:ℚ) = q * q⁻¹ := (mul_inv_cancel₀ hq0).symm
        _ < 1 * q⁻¹ := by exact mul_lt_mul_of_pos_right h1 hinv0
        _ = q⁻¹ := one_mul _
    have hf1 : (1:ℤ) ≤ ⌊q⁻¹⌋ := Int.le_floor.mpr (by push_cast; linarith)
    have hm1 : 1 ≤ ⌊q⁻¹⌋.toNat := by omega
    obtain ⟨ha, hb⟩ := qlog2_spec ⌊q⁻¹⌋.toNat hm1
    have hcast : ((⌊q⁻¹⌋.toNat : ℕ) : ℚ) = ((⌊q⁻¹⌋ : ℤ) : ℚ) := by
      exact_mod_cast Int.toNat_of_nonneg (show (0:ℤ) ≤ ⌊q⁻¹⌋ by omega)
    have hk1 : (2:ℚ) ^ qlog2 ⌊q⁻¹⌋.toNat ≤ q⁻¹ := by
      have h2 : ((2 ^ qlog2 ⌊q⁻¹⌋.toNat : ℕ) : ℚ) ≤ ((⌊q⁻¹⌋.toNat : ℕ) : ℚ) := by
        exact_mod_cast ha
      have h3 : ((⌊q⁻¹⌋ : ℤ) : ℚ) ≤ q⁻¹ := Int.floor_le q⁻¹
      push_cast at h2
      linarith [hcast ▸ h2]
    have hk2 : q⁻¹ < (2:ℚ) ^ (qlog2 ⌊q⁻¹⌋.toNat + 1) := by
      have h4 : q⁻¹ < ((⌊q⁻¹⌋ : ℤ) : ℚ) + 1 := Int.lt_floor_add_one q⁻¹
      have h5 : ((⌊q⁻¹⌋.toNat : ℕ) : ℚ) + 1 ≤ ((2 ^ (qlog2 ⌊q⁻¹⌋.toNat + 1) : ℕ) : ℚ) := by
        exact_mod_cast hb
      push_cast at h5
      linarith [hcast ▸ h5]
    set k := qlog2 ⌊q⁻¹⌋.toNat with hkdef
    have hpk : (0:ℚ) < 2 ^ k := by positivity
    have hpk1 : (0:ℚ) < 2 ^ (k + 1) := by positivity
    have hql : q ≤ ((2:ℚ) ^ k)⁻¹ := by
      have h5 : q * (2:ℚ) ^ k ≤ 1 := by
        calc q * (2:ℚ) ^ k ≤ q * q⁻¹ := mul_le_mul_of_nonneg_left hk1 hq.le
          _ = 1 := mul_inv_cancel₀ hq0
      rw [inv_eq_one_div]
      rw [le_div_iff hpk]
      linarith
    have hqg : ((2:ℚ) ^ (k + 1))⁻¹ < q := by
      have h6 : 1 < q * (2:ℚ) ^ (k + 1) := by
        calc (1:ℚ) = q * q⁻¹ := (mul_inv_cancel₀ hq0).symm
          _ < q * (2:ℚ) ^ (k + 1) := mul_lt_mul_of_pos_left hk2 hq
      rw [inv_eq_one_div]
      rw [div_lt_iff hpk1]
      linarith
    have hp1 : pow2 (-(k:ℤ)) = ((2:ℚ) ^ k)⁻¹ := by
      rw [pow2_eq_zpow, zpow_neg, zpow_natCast]
    have hp2 : pow2 (-(k:ℤ) - 1) = ((2:ℚ) ^ (k + 1))⁻¹ := by
      rw [pow2_eq_zpow, show -(k:ℤ) - 1 = -((k:ℤ) + 1) by ring, zpow_neg]
      congr 1
      rw [show (k:ℤ) + 1 = ((k + 1 : ℕ) : ℤ) by push_cast; ring, zpow_natCast]
    by_cases ht : q * pow2 (k:ℤ) = 1
    · rw [if_pos ht]
      have hqeq : q = pow2 (-(k:ℤ)) := by
        rw [hp1]
        exact eq_inv_of_mul_eq_one_left (by rwa [pow2_natCast] at ht)
      constructor
      · rw [← hqeq]
      · calc q = pow2 (-(k:ℤ)) := hqeq
          _ < pow2 (-(k:ℤ) + 1) := pow2_lt_pow2 (by omega)
    · rw [if_neg ht]
      have hne : q ≠ pow2 (-(k:ℤ)) := by
        intro heq
        apply ht
        rw [heq, ← pow2_add, show -(k:ℤ) + (k:ℤ) = 0 by ring, pow2_zero]
      constructor
      · rw [hp2]
        exact le_of_lt hqg
      · rw [show -(k:ℤ) - 1 + 1 = -(k:ℤ) by ring]
        refine lt_of_le_of_ne ?_ hne
        rw [hp1]
        exact hql

lemma scaleExp_ge (q : ℚ) : -149 ≤ scaleExp q := le_max_right _ _

lemma roundPos_nonneg (q : ℚ) (h : 0 ≤ q) : 0 ≤ roundPos q := by
  unfold roundPos
  have h1 := rne_nonneg (q / pow2 (scaleExp q)) (div_nonneg h (pow2_pos _).le)
  have h2 := (pow2_pos (scaleExp q)).le
  have h3 : (0:ℚ) ≤ (rne (q / pow2 (scaleExp q)) : ℚ) := by exact_mod_cast h1
  exact mul_nonneg h3 h2

lemma roundPos_zero : roundPos 0 = 0 := by
  unfold roundPos
  rw [zero_div]
  rw [show ((0:ℚ)) = (((0:ℤ)) : ℚ) by norm_num, rne_intCast]
  norm_num

lemma qexp_unique (q : ℚ) (e : ℤ) (hq : 0 < q) (h1 : pow2 e ≤ q) (h2 : q < pow2 (e + 1)) :
    qexp q = e := by
  obtain ⟨ha, hb⟩ := qexp_spec q hq
  by_contra hne
  rcases lt_or_gt_of_ne hne with hlt | hgt
  · have h3 : qexp q + 1 ≤ e := by omega
    have h4 := pow2_le_pow2 h3
    linarith
  · have h3 : e + 1 ≤ qexp q := by omega
    have h4 := pow2_le_pow2 h3
    linarith

lemma roundPos_le_pow2 (q : ℚ) (hq : 0 < q) : roundPos q ≤ pow2 (qexp q + 1) := by
  obtain ⟨hsp1, hsp2⟩ := qexp_spec q hq
  by_cases hc : 0 ≤ qexp q + 1 - scaleExp q
  · have hgrid : pow2 (qexp q + 1) / pow2 (scaleExp q) =
        ((2 ^ (qexp q + 1 - scaleExp q).toNat : ℤ) : ℚ) := by
      rw [← pow2_sub, pow2_toNat _ hc]
    have hle : q / pow2 (scaleExp q) ≤ ((2 ^ (qexp q + 1 - scaleExp q).toNat : ℤ) : ℚ) := by
      rw [← hgrid]
      exact (div_le_div_right (pow2_pos _)).mpr hsp2.le
    have h2 := rne_le_int _ _ hle
    unfold roundPos
    calc (rne (q / pow2 (scaleExp q)) : ℚ) * pow2 (scaleExp q)
        ≤ ((2 ^ (qexp q + 1 - scaleExp q).toNat : ℤ) : ℚ) * pow2 (scaleExp q) := by
          exact mul_le_mul_of_nonneg_right (by exact_mod_cast h2) (pow2_pos _).le
      _ = pow2 (qexp q + 1) := by
          rw [← pow2_toNat _ hc, ← pow2_add]
          congr 1
          ring
  · push_neg at hc
    have hq2 : q / pow2 (scaleExp q) < 1/2 := by
      have h2 : pow2 (qexp q + 1) / pow2 (scaleExp q) ≤ 1/2 := by
        rw [← pow2_sub]
        have h3 : qexp q + 1 - scaleExp q ≤ -1 := by omega
        calc pow2 (qexp q + 1 - scaleExp q) ≤ pow2 (-1) := pow2_le_pow2 h3
          _ = 1/2 := by rw [pow2_eq_zpow]; norm_num
      calc q / pow2 (scaleExp q) < pow2 (qexp q + 1) / pow2 (scaleExp q) :=
            (div_lt_div_right (pow2_pos _)).mpr hsp2
        _ ≤ 1/2 := h2
    unfold roundPos
    rw [rne_eq_zero _ (div_nonneg hq.le (pow2_pos _).le) hq2]
    norm_num
    exact le_of_lt (pow2_pos _)

lemma pow2_ofNat_eq (n : ℕ) : pow2 (n : ℤ) = ((2 ^ n : ℤ) : ℚ) := by
  rw [pow2_natCast]
  push_cast
  ring

lemma pow2_le_roundPos (q : ℚ) (hq : 0 < q) (hE : scaleExp q = qexp q - 23) :
    pow2 (qexp q) ≤ roundPos q := by
  have hgrid : pow2 (qexp q) / pow2 (scaleExp q) = ((2 ^ 23 : ℤ) : ℚ) := by
    rw [hE, ← pow2_sub, show qexp q - (qexp q - 23) = ((23 : ℕ) : ℤ) by push_cast; ring,
      pow2_ofNat_eq]
  have h1 : ((2 ^ 23 : ℤ) : ℚ) ≤ q / pow2 (scaleExp q) := by
    rw [← hgrid]
    exact (div_le_div_right (pow2_pos _)).mpr (qexp_spec q hq).1
  have h2 := int_le_rne _ _ h1
  unfold roundPos
  calc pow2 (qexp q) = ((2 ^ 23 : ℤ) : ℚ) * pow2 (scaleExp q) := by
        rw [← hgrid]
        rw [div_mul_cancel₀ _ (pow2_ne_zero _)]
    _ ≤ (rne (q / pow2 (scaleExp q)) : ℚ) * pow2 (scaleExp q) := by
        exact mul_le_mul_of_nonneg_right (by exact_mod_cast h2) (pow2_pos _).le

lemma qexp_mono (q r : ℚ) (hq : 0 < q) (h : q ≤ r) : qexp q ≤ qexp r := by
  by_contra hcon
  push_neg at hcon
  have h1 := (qexp_spec q hq).1
  have h2 := (qexp_spec r (lt_of_lt_of_le hq h)).2
  have h3 : qexp r + 1 ≤ qexp q := by omega
  have h4 := pow2_le_pow2 h3
  linarith

lemma roundPos_mono (q r : ℚ) (hq : 0 ≤ q) (h : q ≤ r) : roundPos q ≤ roundPos r := by
  rcases hq.eq_or_lt with h0 | h0
  · rw [← h0, roundPos_zero]
    exact roundPos_nonneg r (by linarith)
  · have hr : 0 < r := lt_of_lt_of_le h0 h
    by_cases hs : scaleExp q = scaleExp r
    · unfold roundPos
      rw [hs]
      have hmono := rne_mono _ _ ((div_le_div_right (pow2_pos (scaleExp r))).mpr h)
      exact mul_le_mul_of_nonneg_right (by exact_mod_cast hmono) (pow2_pos _).le
    · have he : qexp q ≤ qexp r := qexp_mono q r h0 h
      have hsle : scaleExp q ≤ scaleExp r := max_le_max (by omega) le_rfl
      have hslt : scaleExp q < scaleExp r := lt_of_le_of_ne hsle hs
      have hE2 : scaleExp r = qexp r - 23 := by
        rcases max_choice (qexp r - 23) (-149) with hch | hch
        · exact hch
        · exfalso
          have h1 := scaleExp_ge q
          have h2 : scaleExp r = -149 := hch
          omega
      have helt : qexp q < qexp r := by
        by_contra hcon
        push_neg at hcon
        have heq : qexp q = qexp r := le_antisymm he hcon
        apply hs
        unfold scaleExp
        rw [heq]
      calc roundPos q ≤ pow2 (qexp q + 1) := roundPos_le_pow2 q h0
        _ ≤ pow2 (qexp r) := pow2_le_pow2 (by omega)
        _ ≤ roundPos r := pow2_le_roundPos r hr hE2

lemma roundPos_exact (q : ℚ) (m t : ℤ) (hm : m < 2 ^ 24) (ht : -149 ≤ t)
    (hq : q = (m : ℚ) * pow2 t) (h0 : 0 < q) : roundPos q = q := by
  have hub : q < pow2 (t + 24) := by
    rw [hq, pow2_add]
    have h1 : (m : ℚ) < pow2 24 := by
      rw [show (24 : ℤ) = ((24 : ℕ) : ℤ) by norm_num, pow2_ofNat_eq]
      exact_mod_cast hm
    calc (m : ℚ) * pow2 t < pow2 24 * pow2 t := by
          exact mul_lt_mul_of_pos_right h1 (pow2_pos t)
      _ = pow2 t * pow2 24 := by ring
  have he : qexp q ≤ t + 23 := by
    have h1 := (qexp_spec q h0).1
    by_contra hcon
    push_neg at hcon
    have h2 := pow2_le_pow2 (show t + 24 ≤ qexp q by omega)
    linarith
  obtain ⟨E, hEdef⟩ : ∃ E, scaleExp q = E := ⟨_, rfl⟩
  have hEt : E ≤ t := by
    rw [← hEdef]
    exact max_le (by omega) (by omega)
  have hsplit : pow2 t = pow2 (t - E) * pow2 E := by
    rw [← pow2_add]; congr 1; ring
  have hpow : pow2 (t - E) = ((2 ^ (t - E).toNat : ℤ) : ℚ) := pow2_toNat _ (by omega)
  have hgrid : q / pow2 E = ((m * 2 ^ (t - E).toNat : ℤ) : ℚ) := by
    rw [hq, hsplit, hpow, div_eq_iff (pow2_ne_zero E)]
    push_cast
    ring
  have hround : roundPos q = ((m * 2 ^ (t - E).toNat : ℤ) : ℚ) * pow2 E := by
    unfold roundPos
    rw [hEdef, hgrid, rne_intCast]
  rw [hround, hq, hsplit, hpow]
  push_cast
  ring

lemma roundF_eq_roundPos (q : ℚ) (h : 0 ≤ q) : roundF q = roundPos q := by
  unfold roundF
  rw [if_neg (not_lt.mpr h)]

lemma roundF_zero : roundF 0 = 0 := by
  rw [roundF_eq_roundPos 0 le_rfl, roundPos_zero]

lemma roundF_nonneg (q : ℚ) (h : 0 ≤ q) : 0 ≤ roundF q := by
  rw [roundF_eq_roundPos q h]
  exact roundPos_nonneg q h

lemma roundF_mono_nonneg (q r : ℚ) (hq : 0 ≤ q) (h : q ≤ r) : roundF q ≤ roundF r := by
  rw [roundF_eq_roundPos q hq, roundF_eq_roundPos r (le_trans hq h)]
  exact roundPos_mono q r hq h

lemma roundF_exact (q : ℚ) (m t : ℤ) (hm : m < 2 ^ 24) (ht : -149 ≤ t)
    (hq : q = (m : ℚ) * pow2 t) (h0 : 0 ≤ q) : roundF q = q := by
  rcases h0.eq_or_lt with h | h
  · rw [← h, roundF_zero]
  · rw [roundF_eq_roundPos q h0]
    exact roundPos_exact q m t hm ht hq h

lemma roundF_natCast (n : ℕ) (h : n < 2 ^ 24) : roundF (n : ℚ) = n := by
  apply roundF_exact (n : ℚ) (n : ℤ) 0 (by exact_mod_cast h) (by norm_num)
  · rw [pow2_zero]
    push_cast
    ring
  · positivity

lemma roundF_one : roundF 1 = 1 := by
  have h := roundF_natCast 1 (by norm_num)
  simpa using h

lemma roundF_le_one (q : ℚ) (h0 : 0 ≤ q) (h : q ≤ 1) : roundF q ≤ 1 := by
  have := roundF_mono_nonneg q 1 h0 h
  rwa [roundF_one] at this

lemma roundF_two_pow64 : roundF (2 ^ 64 : ℚ) = 2 ^ 64 := by
  apply roundF_exact _ (2 ^ 23 : ℤ) 41 (by norm_num) (by norm_num)
  · rw [show (41 : ℤ) = ((41 : ℕ) : ℤ) by norm_num, pow2_ofNat_eq]
    push_cast
    norm_num
  · positivity

lemma roundF_le_two_pow64 (q : ℚ) (h0 : 0 ≤ q) (h : q ≤ 2 ^ 64) : roundF q ≤ 2 ^ 64 := by
  have := roundF_mono_nonneg q (2 ^ 64) h0 h
  rwa [roundF_two_pow64] at this

lemma roundF_nonpos (q : ℚ) (h : q ≤ 0) : roundF q ≤ 0 := by
  rcases h.eq_or_lt with h1 | h1
  · rw [h1, roundF_zero]
  · unfold roundF
    rw [if_pos h1]
    have := roundPos_nonneg (-q) (by linarith)
    linarith

lemma mkF_fin (q : ℚ) (h1 : roundF q < maxMag) (h2 : -maxMag < roundF q) :
    mkF q = F32.fin (roundF q) := by
  unfold mkF
  rw [if_neg (not_le.mpr h1), if_neg (not_le.mpr (by linarith))]

lemma mkF_fin_of_bounds (q : ℚ) (h0 : 0 ≤ q) (h : q ≤ 2 ^ 64) :
    mkF q = F32.fin (roundF q) := by
  apply mkF_fin
  · unfold maxMag
    have := roundF_le_two_pow64 q h0 h
    norm_num at this ⊢
    linarith
  · unfold maxMag
    have := roundF_nonneg q h0
    norm_num
    linarith

lemma ofNat_eq_fin (n : ℕ) (h : n ≤ 2 ^ 64) : F32.ofNat n = F32.fin (roundF (n : ℚ)) := by
  unfold F32.ofNat
  apply mkF_fin_of_bounds
  · positivity
  · exact_mod_cast h

lemma ofNat_small (n : ℕ) (h : n < 2 ^ 24) : F32.ofNat n = F32.fin (n : ℚ) := by
  rw [ofNat_eq_fin n (by norm_num; omega), roundF_natCast n h]

lemma mkF_zero : mkF 0 = F32.fin 0 := by
  rw [mkF_fin_of_bounds 0 le_rfl (by norm_num), roundF_zero]

lemma mkF_one : mkF 1 = F32.fin 1 := by
  rw [mkF_fin_of_bounds 1 (by norm_num) (by norm_num), roundF_one]

lemma F32.le_fin (a b : ℚ) : F32.le (F32.fin a) (F32.fin b) ↔ a ≤ b := by
  unfold F32.le F32.ble
  simp

lemma div_fin_fin (a b : ℚ) (hb : b ≠ 0) :
    F32.div (F32.fin a) (F32.fin b) = mkF (a / b) := by
  simp only [F32.div]
  rw [if_neg hb]

lemma sub_fin_fin (a b : ℚ) : F32.sub (F32.fin a) (F32.fin b) = mkF (a - b) := by
  simp only [F32.sub]

lemma mul_fin_fin (a b : ℚ) : F32.mul (F32.fin a) (F32.fin b) = mkF (a * b) := by
  simp only [F32.mul]

/-- C2: for every frame_count ≥ 2 (within the usize range the program can
produce), the ToDark schedule has length frame_count, starts at 1.0, ends at
0.0, and is monotonically non-increasing under the IEEE order. -/
theorem fadeFactors_toDark_correct (n : ℕ) (h2 : 2 ≤ n) (hn : n < 2 ^ 64) :
    (fadeFactors n FadeStyle.toDark).length = n ∧
    (fadeFactors n FadeStyle.toDark)[0]? = some (F32.fin 1) ∧
    (fadeFactors n FadeStyle.toDark)[n - 1]? = some (F32.fin 0) ∧
    (fadeFactors n FadeStyle.toDark).Pairwise (fun x y => F32.le y x) := by
  have hd1 : 1 ≤ roundF ((n - 1 : ℕ) : ℚ) := by
    rw [← roundF_one]
    apply roundF_mono_nonneg 1 _ (by norm_num)
    have h : 1 ≤ n - 1 := by omega
    exact_mod_cast h
  set d := roundF ((n - 1 : ℕ) : ℚ) with hd
  have hd0 : (0:ℚ) < d := by linarith
  have hdne : d ≠ 0 := by linarith
  have hofd : F32.ofNat (n - 1) = F32.fin d := by
    rw [ofNat_eq_fin (n - 1) (by omega)]
  have hvb : ∀ i : ℕ, i ≤ n - 1 →
      0 ≤ roundF (roundF (i:ℚ) / d) ∧ roundF (roundF (i:ℚ) / d) ≤ 1 := by
    intro i hi
    have hicast : ((i:ℕ) : ℚ) ≤ ((n - 1 : ℕ) : ℚ) := by exact_mod_cast hi
    have hri0 : 0 ≤ roundF (i:ℚ) := roundF_nonneg _ (by positivity)
    have hrile : roundF (i:ℚ) ≤ d := by
      rw [hd]
      exact roundF_mono_nonneg _ _ (by positivity) hicast
    have hquot0 : 0 ≤ roundF (i:ℚ) / d := div_nonneg hri0 hd0.le
    have hquot1 : roundF (i:ℚ) / d ≤ 1 := by
      rw [div_le_one hd0]
      exact hrile
    exact ⟨roundF_nonneg _ hquot0, roundF_le_one _ hquot0 hquot1⟩
  have hval : ∀ i : ℕ, i ≤ n - 1 →
      F32.sub (F32.fin 1) (F32.div (F32.ofNat i) (F32.ofNat (n - 1))) =
        F32.fin (roundF (1 - roundF (roundF (i:ℚ) / d))) := by
    intro i hi
    have hicast : ((i:ℕ) : ℚ) ≤ ((n - 1 : ℕ) : ℚ) := by exact_mod_cast hi
    have hofi : F32.ofNat i = F32.fin (roundF (i:ℚ)) := ofNat_eq_fin i (by omega)
    have hri0 : 0 ≤ roundF (i:ℚ) := roundF_nonneg _ (by positivity)
    have hrile : roundF (i:ℚ) ≤ d := by
      rw [hd]
      exact roundF_mono_nonneg _ _ (by positivity) hicast
    have hquot0 : 0 ≤ roundF (i:ℚ) / d := div_nonneg hri0 hd0.le
    have hquot1 : roundF (i:ℚ) / d ≤ 1 := by
      rw [div_le_one hd0]
      exact hrile
    obtain ⟨hv0, hv1⟩ := hvb i hi
    rw [hofi, hofd, div_fin_fin _ _ hdne,
      mkF_fin_of_bounds _ hquot0 (le_trans hquot1 (by norm_num)),
      sub_fin_fin, mkF_fin_of_bounds _ (by linarith) (by linarith [show (1:ℚ) ≤ 2 ^ 64 by norm_num])]
  have hfeq : fadeFactors n FadeStyle.toDark = (List.range n).map (fun i =>
      F32.sub (F32.fin 1) (F32.div (F32.ofNat i) (F32.ofNat (n - 1)))) := rfl
  refine ⟨?_, ?_, ?_, ?_⟩
  · rw [hfeq]
    simp
  · rw [hfeq, List.getElem?_map, List.getElem?_range (by omega : 0 < n)]
    rw [Option.map_some']
    rw [hval 0 (by omega)]
    congr 1
    congr 1
    rw [Nat.cast_zero, roundF_zero, zero_div, roundF_zero, sub_zero, roundF_one]
  · rw [hfeq, List.getElem?_map, List.getElem?_range (by omega : n - 1 < n)]
    rw [Option.map_some']
    rw [hval (n - 1) le_rfl]
    congr 1
    congr 1
    rw [← hd, div_self hdne, roundF_one, sub_self, roundF_zero]
  · rw [hfeq, List.pairwise_map]
    apply List.Pairwise.imp_of_mem ?_ (List.pairwise_lt_range n)
    intro i j hi hj hij
    have hin : i ≤ n - 1 := by
      have := List.mem_range.mp hi
      omega
    have hjn : j ≤ n - 1 := by
      have := List.mem_range.mp hj
      omega
    rw [hval i hin, hval j hjn, F32.le_fin]
    have h1 : roundF ((i:ℚ)) ≤ roundF ((j:ℚ)) :=
      roundF_mono_nonneg _ _ (by positivity) (by exact_mod_cast le_of_lt hij)
    have h2 : roundF (i:ℚ) / d ≤ roundF (j:ℚ) / d := (div_le_div_right hd0).mpr h1
    have hquot0 : 0 ≤ roundF (i:ℚ) / d :=
      div_nonneg (roundF_nonneg _ (by positivity)) hd0.le
    have h3 : roundF (roundF (i:ℚ) / d) ≤ roundF (roundF (j:ℚ) / d) :=
      roundF_mono_nonneg _ _ hquot0 h2
    obtain ⟨hj0, hj1⟩ := hvb j hjn
    apply roundF_mono_nonneg _ _ (by linarith) (by linarith)

/-- Witness for C2 at frame_count = 3. -/
theorem fadeFactors_toDark_correct_w :
    2 ≤ 3 ∧ (3:ℕ) < 2 ^ 64 ∧
      ((fadeFactors 3 FadeStyle.toDark).length = 3 ∧
       (fadeFactors 3 FadeStyle.toDark)[0]? = some (F32.fin 1) ∧
       (fadeFactors 3 FadeStyle.toDark)[3 - 1]? = some (F32.fin 0) ∧
       (fadeFactors 3 FadeStyle.toDark).Pairwise (fun x y => F32.le y x)) :=
  ⟨by norm_num, by norm_num, fadeFactors_toDark_correct 3 (by norm_num) (by norm_num)⟩

lemma castU8_fin_nat (m : ℕ) (h : m ≤ 255) : F32.castU8 (F32.fin (m : ℚ)) = ⟨m, by omega⟩ := by
  simp only [F32.castU8]
  by_cases hm : m = 0
  · subst hm
    rw [if_pos (by norm_num)]
    rfl
  · rw [if_neg (not_le.mpr (by exact_mod_cast Nat.pos_of_ne_zero hm))]
    apply Fin.ext
    simp only [Int.floor_natCast, Int.toNat_natCast]
    exact min_eq_right h

lemma castU8_mkF_nonpos (q : ℚ) (h : q ≤ 0) : F32.castU8 (mkF q) = 0 := by
  have hM : (0:ℚ) < maxMag := by unfold maxMag; positivity
  have hr := roundF_nonpos q h
  unfold mkF
  rw [if_neg (not_le.mpr (by linarith))]
  by_cases h2 : roundF q ≤ -maxMag
  · rw [if_pos h2]
    rfl
  · rw [if_neg h2]
    simp only [F32.castU8]
    rw [if_pos hr]

lemma mul_x_nan (x : F32) : F32.mul x F32.nan = F32.nan := by
  cases x <;> rfl

lemma dropExtRev_of_not_mem (l : List Char) (h : '.' ∉ l) : dropExtRev l = none := by
  induction l with
  | nil => rfl
  | cons c cs ih =>
    simp only [dropExtRev]
    rw [if_neg (by intro hc; exact h (hc ▸ List.mem_cons_self c cs))]
    exact ih (fun hm => h (List.mem_cons_of_mem c hm))

lemma dropExtRev_append (v u : List Char) (hv : '.' ∉ v) :
    dropExtRev (v ++ '.' :: u) = some u := by
  induction v with
  | nil => simp [dropExtRev]
  | cons c cs ih =>
    simp only [List.cons_append, dropExtRev]
    rw [if_neg (by intro hc; exact hv (hc ▸ List.mem_cons_self c cs))]
    exact ih (fun hm => hv (List.mem_cons_of_mem c hm))

lemma fileStemChars_no_dot (name : List Char) (h : '.' ∉ name) : fileStemChars name = name := by
  unfold fileStemChars
  rw [dropExtRev_of_not_mem _ (by simpa using h)]

lemma fileStemChars_one_dot (u v : List Char) (hu : '.' ∉ u) (hv : '.' ∉ v) :
    fileStemChars (u ++ '.' :: v) = if u = [] then u ++ '.' :: v else u := by
  unfold fileStemChars
  rw [List.reverse_append, List.reverse_cons, List.append_assoc, List.singleton_append,
    dropExtRev_append _ _ (by simpa using hv)]
  show (if u.reverse = [] then u ++ '.' :: v else u.reverse.reverse) = _
  by_cases hue : u = []
  · rw [if_pos (by simp [hue]), if_pos hue]
  · rw [if_neg (by simpa using hue), if_neg hue, List.reverse_reverse]

/-- C1 (code bug): at frame_count = 1 the ToDark schedule is a single NaN
(the code computes 1.0 − 0.0/0.0), not a defined finite value in [0,1] as
the spec requires. -/
theorem fadeFactors_one_toDark_nan : fadeFactors 1 FadeStyle.toDark = [F32.nan] := by
  decide

/-- C3 counterexample: for frame_count = 10 and ToDarkAndBack the schedule is
not the claimed list (descent then ascent 0.0, 0.2, 0.4, 0.6, 0.8, written as
the f32 values of those decimal literals). -/
theorem fadeFactors_ten_ne_claimed :
    fadeFactors 10 FadeStyle.toDarkAndBack ≠
      [F32.fin 1, F32.fin (3/4), F32.fin (1/2), F32.fin (1/4), F32.fin 0,
       F32.fin 0, F32.fin (roundF (1/5)), F32.fin (roundF (2/5)), F32.fin (roundF (3/5)),
       F32.fin (roundF (4/5))] := by
  decide

/-- C3 amended: for frame_count = 10, half = 5 and the schedule descends
1.0, 0.75, 0.5, 0.25, 0.0 and then ascends 0.0, 0.25, 0.5, 0.75, 1.0 (the
second segment divides by frame_count − half − 1 = 4, not 5). -/
theorem fadeFactors_ten_toDarkAndBack :
    fadeFactors 10 FadeStyle.toDarkAndBack =
      [F32.fin 1, F32.fin (3/4), F32.fin (1/2), F32.fin (1/4), F32.fin 0,
       F32.fin 0, F32.fin (1/4), F32.fin (1/2), F32.fin (3/4), F32.fin 1] := by
  decide

/-- C4 counterexample: at frame_count = 4 the computed f32 values are not
exact reverses: FromDark[1] = fl(1/3) differs from ToDark[2] = fl(1 − fl(2/3))
in the last binary digit. -/
theorem fromDark_reverse_cex :
    (fadeFactors 4 FadeStyle.fromDark)[1]? ≠ (fadeFactors 4 FadeStyle.toDark)[2]? := by
  decide

/-- C4 amended: in exact (real) arithmetic the FromDark schedule is the exact
reverse of the ToDark schedule for every frame_count ≥ 2; the f32-computed
schedules can differ in the last bit. -/
theorem fromDarkExact_reverse (n : ℕ) (h : 2 ≤ n) :
    fromDarkExact n = (toDarkExact n).reverse := by
  have hne : ((n - 1 : ℕ) : ℚ) ≠ 0 := by
    have h1 : 1 ≤ n - 1 := by omega
    have h2 : (1:ℚ) ≤ ((n - 1 : ℕ) : ℚ) := by exact_mod_cast h1
    linarith
  have hlf : (fromDarkExact n).length = n := by
    unfold fromDarkExact
    rw [List.length_map, List.length_range]
  have hlt : (toDarkExact n).length = n := by
    unfold toDarkExact
    rw [List.length_map, List.length_range]
  apply List.ext_getElem
  · rw [hlf, List.length_reverse, hlt]
  · intro i h1 h2
    have hin : i < n := by rwa [hlf] at h1
    rw [List.getElem_reverse]
    unfold fromDarkExact toDarkExact
    rw [List.getElem_map, List.getElem_map, List.getElem_range, List.getElem_range]
    simp only [List.length_map, List.length_range]
    rw [Nat.cast_sub (show i ≤ n - 1 by omega)]
    have hne2 : (n:ℚ) - 1 ≠ 0 := by
      have h2n : (2:ℚ) ≤ (n:ℚ) := by exact_mod_cast h
      intro hc
      linarith
    field_simp

/-- Witness for the amended C4 at frame_count = 4. -/
theorem fromDarkExact_reverse_w : fromDarkExact 4 = (toDarkExact 4).reverse :=
  fromDarkExact_reverse 4 (by norm_num)

/-- C5 counterexample: at frame_count = 4 the FromDarkAndBack schedule is not
the reverse of the ToDarkAndBack schedule (the code computes [0,1,1,0] versus
the reverse [1,0,0,1]). -/
theorem fromDarkAndBack_reverse_cex :
    fadeFactors 4 FadeStyle.fromDarkAndBack ≠
      (fadeFactors 4 FadeStyle.toDarkAndBack).reverse := by
  decide

/-- C5 amended: the two round-trip schedules are pointwise complements, not
reverses: in exact arithmetic FromDarkAndBack[i] = 1 − ToDarkAndBack[i] for
every frame_count and every index. -/
theorem fromDarkAndBackExact_complement (n : ℕ) :
    fromDarkAndBackExact n = (toDarkAndBackExact n).map (fun x => 1 - x) := by
  unfold fromDarkAndBackExact toDarkAndBackExact
  rw [List.map_append, List.map_map, List.map_map]
  congr 1 <;>
    first
      | rfl
      | (apply List.map_congr_left; intro i _; simp only [Function.comp_apply]; ring)

/-- C6: rendering with factor 1.0 reproduces the source image exactly (all
four channels), and factor 0.0 yields black RGB with alpha unchanged. -/
theorem fadeImage_factor_one_zero (img : Img) :
    fadeImage img (F32.fin 1) = img ∧
    fadeImage img (F32.fin 0) =
      { width := img.width, height := img.height,
        data := img.data.map (fun p => { r := 0, g := 0, b := 0, a := p.a }) } := by
  have hch1 : ∀ c : Fin 256, F32.castU8 (F32.mul (F32.ofNat c.val) (F32.fin 1)) = c := by
    intro c
    have hlt : c.val < 2 ^ 24 := by
      have := c.isLt
      omega
    have h255 : c.val ≤ 255 := by
      have := c.isLt
      omega
    have hle64 : ((c.val : ℕ) : ℚ) ≤ 2 ^ 64 := by
      have h1 : ((c.val : ℕ) : ℚ) ≤ 255 := by exact_mod_cast h255
      linarith [show (255:ℚ) ≤ 2 ^ 64 by norm_num]
    rw [ofNat_small c.val hlt, mul_fin_fin, mul_one,
      mkF_fin_of_bounds _ (by positivity) hle64, roundF_natCast c.val hlt,
      castU8_fin_nat c.val h255]
  have hch0 : ∀ c : Fin 256, F32.castU8 (F32.mul (F32.ofNat c.val) (F32.fin 0)) = 0 := by
    intro c
    have hlt : c.val < 2 ^ 24 := by
      have := c.isLt
      omega
    rw [ofNat_small c.val hlt, mul_fin_fin, mul_zero, mkF_zero]
    have h := castU8_fin_nat 0 (by norm_num)
    rw [Nat.cast_zero] at h
    rw [h]
    decide
  constructor
  · have hpix : ∀ p : Rgba, fadePixel p (F32.fin 1) = p := by
      intro p
      cases p with
      | mk r g b a =>
        unfold fadePixel
        simp only
        rw [hch1 r, hch1 g, hch1 b]
    cases img with
    | mk w h data =>
      simp only [fadeImage]
      congr 1
      calc data.map (fun p => fadePixel p (F32.fin 1)) = data.map id :=
            List.map_congr_left (fun p _ => hpix p)
        _ = data := List.map_id data
  · have hpix : ∀ p : Rgba, fadePixel p (F32.fin 0) =
        { r := 0, g := 0, b := 0, a := p.a } := by
      intro p
      cases p with
      | mk r g b a =>
        unfold fadePixel
        simp only
        rw [hch0 r, hch0 g, hch0 b]
    cases img with
    | mk w h data =>
      simp only [fadeImage]
      congr 1
      exact List.map_congr_left (fun p _ => hpix p)

/-- C7: rendering preserves the image dimensions and the alpha channel of
every pixel, for any factor in [0,1]; the embedding is pure, so the source
image is unchanged by construction. -/
theorem fadeImage_preserves (img : Img) (q : ℚ) (h0 : 0 ≤ q) (h1 : q ≤ 1) :
    (fadeImage img (F32.fin q)).width = img.width ∧
    (fadeImage img (F32.fin q)).height = img.height ∧
    (fadeImage img (F32.fin q)).data.map Rgba.a = img.data.map Rgba.a := by
  refine ⟨rfl, rfl, ?_⟩
  show (img.data.map (fun p => fadePixel p (F32.fin q))).map Rgba.a = img.data.map Rgba.a
  rw [List.map_map]
  apply List.map_congr_left
  intro p _
  rfl

/-- Witness for C7 on a concrete one-pixel image with factor 0.5. -/
theorem fadeImage_preserves_w :
    (0:ℚ) ≤ 1/2 ∧ (1/2:ℚ) ≤ 1 ∧
      ((fadeImage imgW (F32.fin (1/2))).width = imgW.width ∧
       (fadeImage imgW (F32.fin (1/2))).height = imgW.height ∧
       (fadeImage imgW (F32.fin (1/2))).data.map Rgba.a = imgW.data.map Rgba.a) :=
  ⟨by norm_num, by norm_num, fadeImage_preserves imgW (1/2) (by norm_num) (by norm_num)⟩

/-- C8 counterexample: frame_count is the ceiling of the f32-rounded product,
which can differ from the ceiling of the exact product: with duration
1 + 2^(-23) (an exact f32) and framerate 8388609 = 2^23 + 1 the code computes
8388610 while the exact ceil(duration × framerate) is 8388611. -/
theorem frameCount_cex :
    frameCount (F32.fin (8388609/8388608)) 8388609 ≠
      (⌈(8388609/8388608 : ℚ) * (8388609 : ℚ)⌉).toNat ∧
    frameCount (F32.fin (8388609/8388608)) 8388609 = 8388610 ∧
    (⌈(8388609/8388608 : ℚ) * (8388609 : ℚ)⌉).toNat = 8388611 := by
  refine ⟨by decide, by decide, by decide⟩

/-- C8 amended: frame_count = ceil(duration ⊗ framerate) where ⊗ is f32
multiplication; it agrees with the exact formula on the spec's examples
(duration 2.0, framerate 10 → 20 and duration 1.5, framerate 10 → 15). -/
theorem frameCount_f32_ceil :
    frameCount (F32.fin 2) 10 = 20 ∧
    frameCount (F32.fin (3/2)) 10 = 15 ∧
    (∀ (q p : ℚ) (f : ℕ), F32.mul (F32.fin q) (F32.ofNat f) = F32.fin p →
      0 ≤ p → p ≤ 2 ^ 64 - 1 → frameCount (F32.fin q) f = (⌈p⌉).toNat) := by
  refine ⟨by decide, by decide, ?_⟩
  intro q p f hmul hp0 hple
  unfold frameCount
  rw [hmul]
  show (F32.fceil (F32.fin p)).castUsize = _
  simp only [F32.fceil, F32.castUsize]
  by_cases hc : ((⌈p⌉ : ℤ) : ℚ) ≤ 0
  · rw [if_pos hc]
    have h1 : (⌈p⌉ : ℤ) ≤ 0 := by exact_mod_cast hc
    have h2 : 0 ≤ ⌈p⌉ := Int.ceil_nonneg hp0
    omega
  · rw [if_neg hc]
    rw [Int.floor_intCast]
    have h1 : ⌈p⌉ ≤ (2 ^ 64 - 1 : ℤ) := Int.ceil_le.mpr (by push_cast; linarith)
    have h2 : ⌈p⌉.toNat ≤ usizeMax := by
      have h3 : usizeMax = 18446744073709551615 := by norm_num [usizeMax]
      have h4 : (2 ^ 64 - 1 : ℤ) = 18446744073709551615 := by norm_num
      omega
    rw [min_eq_right h2]

/-- Witness for the amended C8 at duration 2.0, framerate 10. -/
theorem frameCount_f32_ceil_w :
    F32.mul (F32.fin 2) (F32.ofNat 10) = F32.fin 20 ∧ (0:ℚ) ≤ 20 ∧
      (20:ℚ) ≤ 2 ^ 64 - 1 ∧ frameCount (F32.fin 2) 10 = (⌈(20:ℚ)⌉).toNat :=
  ⟨by decide, by norm_num, by norm_num,
    frameCount_f32_ceil.2.2 2 20 10 (by decide) (by norm_num) (by norm_num)⟩

/-- C9 counterexample: for input a.tar.gz the code produces a.mp4 (it takes
the file stem a.tar and set_extension strips the remaining .tar), while
replacing the filename's extension would give a.tar.mp4. -/
theorem defaultOutput_cex :
    defaultOutput ['a', '.', 't', 'a', 'r', '.', 'g', 'z'] ≠
      replaceExtensionSpec ['a', '.', 't', 'a', 'r', '.', 'g', 'z'] ∧
    defaultOutput ['a', '.', 't', 'a', 'r', '.', 'g', 'z'] = ['a', '.', 'm', 'p', '4'] := by
  refine ⟨by decide, by decide⟩

/-- C9 amended: the default output equals the input file name with its
extension replaced by mp4 whenever the file name contains at most one dot;
names with several extensions lose two suffixes (a.tar.gz becomes a.mp4). -/
theorem defaultOutput_single_dot (input : List Char)
    (h1 : (fileNameChars input).count '.' ≤ 1)
    (h2 : fileNameChars input ≠ [])
    (h3 : fileNameChars input ≠ ['.']) :
    defaultOutput input = replaceExtensionSpec input := by
  have key : fileStemChars (fileNameChars input) ≠ [] ∧
      fileStemChars (fileStemChars (fileNameChars input)) =
        fileStemChars (fileNameChars input) := by
    by_cases hdot : '.' ∈ fileNameChars input
    · obtain ⟨u, v, huv⟩ := List.append_of_mem hdot
      have hcount : (fileNameChars input).count '.' = u.count '.' + v.count '.' + 1 := by
        rw [huv, List.count_append, List.count_cons]
        simp
        omega
      have hu : '.' ∉ u := List.count_eq_zero.mp (by omega)
      have hv : '.' ∉ v := List.count_eq_zero.mp (by omega)
      rw [huv, fileStemChars_one_dot u v hu hv]
      by_cases hue : u = []
      · rw [if_pos hue]
        subst hue
        rw [List.nil_append]
        constructor
        · simp
        · have := fileStemChars_one_dot ([] : List Char) v (by simp) hv
          rw [List.nil_append] at this
          rw [this]
          simp
      · rw [if_neg hue]
        exact ⟨hue, fileStemChars_no_dot u hu⟩
    · rw [fileStemChars_no_dot _ hdot]
      exact ⟨h2, fileStemChars_no_dot _ hdot⟩
  simp only [defaultOutput, replaceExtensionSpec]
  rw [if_neg key.1, key.2]

/-- Witness for the amended C9 on the input photo.png. -/
theorem defaultOutput_single_dot_w :
    (fileNameChars ['p', 'h', 'o', 't', 'o', '.', 'p', 'n', 'g']).count '.' ≤ 1 ∧
    fileNameChars ['p', 'h', 'o', 't', 'o', '.', 'p', 'n', 'g'] ≠ [] ∧
    fileNameChars ['p', 'h', 'o', 't', 'o', '.', 'p', 'n', 'g'] ≠ ['.'] ∧
    defaultOutput ['p', 'h', 'o', 't', 'o', '.', 'p', 'n', 'g'] =
      replaceExtensionSpec ['p', 'h', 'o', 't', 'o', '.', 'p', 'n', 'g'] :=
  ⟨by decide, by decide, by decide,
    defaultOutput_single_dot ['p', 'h', 'o', 't', 'o', '.', 'p', 'n', 'g']
      (by decide) (by decide) (by decide)⟩

/-- C10: fade_image is total and the f32-to-u8 conversion saturates: the
alpha channel is always copied; a NaN factor yields RGB 0; a factor ≤ 0
yields RGB 0; and any finite value at or above 255 casts to 255. -/
theorem fadePixel_saturates :
    (∀ (p : Rgba) (f : F32), (fadePixel p f).a = p.a) ∧
    (∀ p : Rgba, fadePixel p F32.nan = { r := 0, g := 0, b := 0, a := p.a }) ∧
    (∀ (p : Rgba) (q : ℚ), q ≤ 0 →
      fadePixel p (F32.fin q) = { r := 0, g := 0, b := 0, a := p.a }) ∧
    (∀ q : ℚ, (255:ℚ) ≤ q → F32.castU8 (F32.fin q) = 255) := by
  refine ⟨fun p f => rfl, ?_, ?_, ?_⟩
  · intro p
    unfold fadePixel
    simp only [mul_x_nan]
    rfl
  · intro p q hq
    have hch : ∀ c : Fin 256, F32.castU8 (F32.mul (F32.ofNat c.val) (F32.fin q)) = 0 := by
      intro c
      have hlt : c.val < 2 ^ 24 := by
        have := c.isLt
        omega
      rw [ofNat_small c.val hlt, mul_fin_fin]
      apply castU8_mkF_nonpos
      have h1 : (0:ℚ) ≤ ((c.val : ℕ) : ℚ) := by positivity
      nlinarith
    unfold fadePixel
    rw [hch p.r, hch p.g, hch p.b]
  · intro q hq
    simp only [F32.castU8]
    rw [if_neg (not_le.mpr (by linarith))]
    apply Fin.ext
    have h1 : (255:ℤ) ≤ ⌊q⌋ := Int.le_floor.mpr (by exact_mod_cast hq)
    have h2 : 255 ≤ ⌊q⌋.toNat := by omega
    show min 255 ⌊q⌋.toNat = (255 : Fin 256).val
    rw [min_eq_left h2]
    rfl

/-- Witness for C10 at a concrete pixel, a negative factor and value 300. -/
theorem fadePixel_saturates_w :
    (fadePixel pxW (F32.fin (-1))).a = pxW.a ∧
    fadePixel pxW F32.nan = { r := 0, g := 0, b := 0, a := pxW.a } ∧
    ((-1:ℚ) ≤ 0 ∧ fadePixel pxW (F32.fin (-1)) = { r := 0, g := 0, b := 0, a := pxW.a }) ∧
    ((255:ℚ) ≤ 300 ∧ F32.castU8 (F32.fin 300) = 255) :=
  ⟨fadePixel_saturates.1 pxW (F32.fin (-1)), fadePixel_saturates.2.1 pxW,
   ⟨by norm_num, fadePixel_saturates.2.2.1 pxW (-1) (by norm_num)⟩,
   ⟨by norm_num, fadePixel_saturates.2.2.2 300 (by norm_num)⟩⟩
